import Mathlib

set_option autoImplicit false

/-!
Verification of the aws-parallelcluster-node core (Cerebras fork):
a shallow embedding of `src/jobwatcher/plugins/sge.py` (capacity planner and
busy-node classifier) and `src/common/schedulers/converters.py` (declarative
XML/table mapper), with theorems settling the specification's claims.

Definitions come first, in two namespaces (`SgeModel` for the planner and
classifier, `Converters` for the mapper); all lemmas and claim theorems
follow.
-/

namespace SgeModel

/-- A compute-node snapshot as the planner consumes it.
In the source, nodes come from `get_compute_nodes_info()` (an external adapter
in `common/schedulers/sge_commands.py`, outside the two core source files);
`sge.py` reads only `node.state`, `int(node.slots_used)` and
`int(node.slots_reserved)`, so the embedding carries the already-`int()`-
converted slot counts.
Modelled from the spec: the node's `state` is a set of string tokens
(`ComputeNode: {name, state: set-of-tokens, slotsUsed: int, slotsReserved:
int}`); the concrete token strings live in `sge_commands.py`, which is not
part of the two core source files. -/
structure ComputeNode where
  name : String
  state : List String
  slots_used : Int
  slots_reserved : Int

/-- A pending-job snapshot as the planner consumes it.
In the source, jobs come from
`get_pending_jobs_info(max_slots_filter=..., skip_if_state=SGE_HOLD_STATE)`
(external adapter, pre-filtered before this core sees them); the planner loop
reads only `job.slots`. -/
structure SgeJob where
  slots : Int

/-- Insertion of one element into a sorted list, ascending.  Helper for
modelling Python's `list.sort()`. -/
def insertSorted (x : Int) : List Int → List Int
  | [] => [x]
  | y :: ys => if x ≤ y then x :: y :: ys else y :: insertSorted x ys

/-- Python's `avail_slots.sort()`: stable ascending sort, modelled as
insertion sort. -/
def pySort (l : List Int) : List Int :=
  l.foldr insertSorted []

/-- The `avail_slots` list built at the top of `_get_required_slots`:
`instance_properties.get("slots") - int(node.slots_used) - int(node.slots_reserved)`
for every node, then `avail_slots.sort()`. -/
def availSlotsList (instanceSlots : Int) (nodes : List ComputeNode) : List Int :=
  pySort (nodes.map (fun n => instanceSlots - n.slots_used - n.slots_reserved))

/-- The inner `for i in range(len(avail_slots))` scan of `_get_required_slots`:
find the first index `i` with `job.slots <= avail_slots[i]`, subtract the
demand there in place, and stop.  Returns the index together with the updated
list (the index is not used by the source, which only needs the updated list;
it is kept for analysis), or `none` when no entry fits the demand. -/
def placeJobIdx (d : Int) : List Int → Option (Nat × List Int)
  | [] => none
  | a :: rest =>
      if d ≤ a then some (0, (a - d) :: rest)
      else (placeJobIdx d rest).map (fun p => (p.1 + 1, a :: p.2))

/-- One iteration of the outer `for job in pending_jobs` loop of
`_get_required_slots`: the state is `(slots, avail_slots)`; a placed job
updates `avail_slots`, an unplaced job adds `job.slots` to the running
`slots` total. -/
def matchStep (st : Int × List Int) (job : SgeJob) : Int × List Int :=
  match placeJobIdx job.slots st.2 with
  | some p => (st.1, p.2)
  | none => (st.1 + job.slots, st.2)

/-- The function `_get_required_slots(instance_properties, max_size)` from
`src/jobwatcher/plugins/sge.py`.  The node and pending-job snapshots are
parameters because the source obtains them from external adapters
(`get_compute_nodes_info`, `get_pending_jobs_info`); `max_size` only feeds the
adapter's `max_slots_filter`, i.e. the pre-filtering of `pending_jobs`, so it
has no further occurrence here. -/
def get_required_slots (instanceSlots : Int) (nodes : List ComputeNode)
    (pending_jobs : List SgeJob) : Int :=
  (pending_jobs.foldl matchStep (0, availSlotsList instanceSlots nodes)).1

/-- The function `get_required_nodes(instance_properties, max_size)` from
`src/jobwatcher/plugins/sge.py`: `-(-required_slots // vcpus)` with Python's
floor division, i.e. `Int.fdiv`. -/
def get_required_nodes (instanceSlots : Int) (nodes : List ComputeNode)
    (pending_jobs : List SgeJob) : Int :=
  let required_slots := get_required_slots instanceSlots nodes pending_jobs;
  -((-required_slots).fdiv instanceSlots)

/-- The three-node fleet of the spec's concrete planner scenario:
`clusterSlotsPerNode = 4` and `slotsUsed/slotsReserved` giving
`availableSlots = [0, 2, 4]` after the sort. -/
def scenarioNodes : List ComputeNode :=
  [⟨"node1", [], 4, 0⟩, ⟨"node2", [], 1, 1⟩, ⟨"node3", [], 0, 0⟩]

/-- The pending jobs of the spec's concrete planner scenario: slot demands
`[1, 3, 5]` in queue order. -/
def scenarioJobs : List SgeJob :=
  [⟨1⟩, ⟨3⟩, ⟨5⟩]

/-- Modelled from the spec: the `SGE_ORPHANED_STATE` token.  The constant is
defined in `common/schedulers/sge_commands.py`, which is not among the two
core source files; the spec's busy-classification scenario writes the token
as `"orphaned"`. -/
def SGE_ORPHANED_STATE : String := "orphaned"

/-- The loop body of `get_busy_nodes`: count the node when any busy-state
token occurs in its state or it has used or reserved slots, except that an
orphaned node is skipped (the source logs it instead of counting it). -/
def busyStep (busyStates : List String) (busy_nodes : Nat) (node : ComputeNode) :
    Nat :=
  if busyStates.any (fun s => node.state.contains s)
      ∨ 0 < node.slots_used ∨ 0 < node.slots_reserved then
    if node.state.contains SGE_ORPHANED_STATE then
      busy_nodes
    else
      busy_nodes + 1
  else busy_nodes

/-- The function `get_busy_nodes()` from `src/jobwatcher/plugins/sge.py`.
The node snapshot is a parameter (external adapter), and the
`SGE_BUSY_STATES` token list is a parameter because it is defined in
`common/schedulers/sge_commands.py`, outside the two core source files (the
spec only calls it "a fixed `BUSY_STATE_TOKENS` set"). -/
def get_busy_nodes (busyStates : List String) (nodes : List ComputeNode) : Nat :=
  nodes.foldl (busyStep busyStates) 0

/-- The claim's busy-node characterisation, written from the specification's
words: busy iff the state set intersects the busy-state token set, or
`slotsUsed > 0`, or `slotsReserved > 0`, except that an orphaned node is
excluded regardless. -/
def busySpec (busyStates : List String) (node : ComputeNode) : Prop :=
  ((∃ s ∈ busyStates, s ∈ node.state)
      ∨ 0 < node.slots_used ∨ 0 < node.slots_reserved)
    ∧ SGE_ORPHANED_STATE ∉ node.state

instance (busyStates : List String) (node : ComputeNode) :
    Decidable (busySpec busyStates node) := by
  unfold busySpec; infer_instance

/-- The three nodes of the spec's busy-classification scenario: node A
`{state:{}, slotsUsed:2}`, node B `{state:{"orphaned"}, slotsUsed:3}`, node C
`{state:{}, slotsUsed:0, slotsReserved:0}`. -/
def busyScenarioNodes : List ComputeNode :=
  [⟨"A", [], 2, 0⟩, ⟨"B", ["orphaned"], 3, 0⟩, ⟨"C", [], 0, 0⟩]

/-- The assignment the greedy loop actually performs: for each pending job in
order, the index of the `avail_slots` entry it decrements, or `none` when the
job fits nowhere.  Derived from the same inner scan (`placeJobIdx`) the loop
uses; introduced for the analysis of the greedy pass. -/
def greedyAssign (avail : List Int) : List SgeJob → List (Option Nat)
  | [] => []
  | j :: js =>
      match placeJobIdx j.slots avail with
      | some p => some p.1 :: greedyAssign p.2 js
      | none => Option.none :: greedyAssign avail js

/-- Total slot demand that an assignment places on slot entry `i`. -/
def loadOn : List (SgeJob × Option Nat) → Nat → Int
  | [], _ => 0
  | (j, a) :: rest, i =>
      (if a = some i then j.slots else 0) + loadOn rest i

/-- Total slot demand of the jobs an assignment leaves unassigned. -/
def unmetDemand : List (SgeJob × Option Nat) → Int
  | [] => 0
  | (j, a) :: rest =>
      (if a = Option.none then j.slots else 0) + unmetDemand rest

/-- An assignment of pending jobs to available-slot entries is feasible when
it assigns each job to at most one in-range entry and the total demand placed
on every entry that receives at least one job fits within that entry's
initial capacity. -/
def FeasibleAssignment (avail : List Int) (jobs : List SgeJob)
    (asg : List (Option Nat)) : Prop :=
  asg.length = jobs.length ∧
  ∀ i : Nat, (∃ p ∈ jobs.zip asg, p.2 = some i) →
    i < avail.length ∧ loadOn (jobs.zip asg) i ≤ avail.getD i 0

end SgeModel

namespace Converters

/-- An XML element as `xml.etree.ElementTree` presents it to
`from_xml_to_obj`: a tag, an attribute dictionary (`elem.attrib`), optional
text content (`elem.text`, which the library reports as `None` when the
element has no text), and the child elements in document order.  Parsing the
raw string (`ElementTree.fromstring`) is the external library's job; the
embedding starts from the parsed tree. -/
inductive XmlNode where
  | mk (tag : String) (attrib : List (String × String)) (text : Option String)
      (children : List XmlNode)

/-- Tag of an element. -/
def XmlNode.tag : XmlNode → String
  | .mk t _ _ _ => t

/-- Attribute dictionary of an element. -/
def XmlNode.attrib : XmlNode → List (String × String)
  | .mk _ a _ _ => a

/-- Text content of an element (`None` when absent). -/
def XmlNode.text : XmlNode → Option String
  | .mk _ _ t _ => t

/-- Child elements, in document order. -/
def XmlNode.children : XmlNode → List XmlNode
  | .mk _ _ _ c => c

/-- The Python values the mapper manipulates: `None`, strings, ints,
dictionaries, XML subtree nodes, and lists of values. -/
inductive PyValue where
  | none
  | str (s : String)
  | int (n : Int)
  | dict (entries : List (String × PyValue))
  | xml (node : XmlNode)
  | list (vs : List PyValue)

/-- One entry of a record type's `MAPPINGS` dictionary for the XML mapper:
the xml tag to match (`key`), the target attribute (`"field"`), the optional
`"transformation"` function, and `"xml_elem_type"` (`"text"` unless declared
`"xml"`). -/
structure Mapping where
  tag : String
  field : String
  transformation : Option (PyValue → PyValue) := Option.none
  xml_elem_type : String := "text"

/-- Python's `result.attrib[key]` / `key in result.attrib` pair: look up an
attribute by name. -/
def attribGet (attrib : List (String × String)) (key : String) : Option String :=
  (attrib.find? (fun p => p.1 == key)).map (fun p => p.2)

/-- Helper for `findall`: the direct children with the given tag, kept in
document order. -/
def findallChildren (tag : String) : List XmlNode → List XmlNode
  | [] => []
  | c :: cs =>
      if c.tag = tag then c :: findallChildren tag cs
      else findallChildren tag cs

/-- `ElementTree`'s `root.findall(tag)` for a plain tag name (the form the
`MAPPINGS` keys take): the direct children of `root` whose tag matches, in
document order.  The library's `findall` does not descend below the direct
children for a plain tag name. -/
def XmlNode.findall (root : XmlNode) (tag : String) : List XmlNode :=
  findallChildren tag root.children

/-- Python's `str.strip()`: drop leading and trailing whitespace
characters. -/
def pyStrip (s : String) : String :=
  ⟨((s.data.dropWhile Char.isWhitespace).reverse.dropWhile
      Char.isWhitespace).reverse⟩

/-- The text branch of the per-match extraction (lines 46-48 of
`converters.py`): `input = result.text`, then `if input: input =
input.strip()`; an absent text stays Python `None`. -/
def textValue (result : XmlNode) : PyValue :=
  match result.text with
  | Option.none => PyValue.none
  | some s => if s = "" then PyValue.str "" else PyValue.str (pyStrip s)

/-- The per-match extraction of `from_xml_to_obj` before the transformation
is applied: the subtree itself when `xml_elem_type == "xml"`; otherwise the
stripped text, wrapped into the single-entry dict `{result.attrib["name"]:
input}` when the element carries a `name` attribute. -/
def extractValue (xml_elem_type : String) (result : XmlNode) : PyValue :=
  if xml_elem_type = "xml" then PyValue.xml result
  else
    let input := textValue result
    match attribGet result.attrib "name" with
    | some nm => PyValue.dict [(nm, input)]
    | Option.none => input

/-- The `values` list `from_xml_to_obj` accumulates for one `MAPPINGS` entry:
every match of `root.findall(tag)` extracted and passed through the entry's
transformation when one is declared. -/
def extractValues (root : XmlNode) (m : Mapping) : List PyValue :=
  (root.findall m.tag).map (fun result =>
    let input := extractValue m.xml_elem_type result
    match m.transformation with
    | Option.none => input
    | some f => f input)

/-- A mapped object is its attribute valuation; `setattr obj field v` is
Python's `setattr(obj, field, v)`. -/
def setattr (obj : String → PyValue) (field : String) (v : PyValue) :
    String → PyValue :=
  fun f => if f = field then v else obj f

/-- The per-entry tail of `from_xml_to_obj`:
`if values: setattr(obj, mapping["field"], values[0] if len(values) == 1 else
values)` — no values leaves the attribute at its construction-time default. -/
def applyMapping (root : XmlNode) (obj : String → PyValue) (m : Mapping) :
    String → PyValue :=
  match extractValues root m with
  | [] => obj
  | [v] => setattr obj m.field v
  | vs => setattr obj m.field (PyValue.list vs)

/-- `from_xml_to_obj(xml, obj_type)` from
`src/common/schedulers/converters.py`, applied to the parsed tree: fold the
ordered `MAPPINGS` entries over the freshly constructed object `obj0` (whose
valuation carries the `__init__` defaults). -/
def from_xml_to_obj (root : XmlNode) (mappings : List Mapping)
    (obj0 : String → PyValue) : String → PyValue :=
  mappings.foldl (applyMapping root) obj0

/-- All elements of a forest whose tag matches, at any depth, in document
(pre-order) order.  Written from the spec's words ("finds all elements
matching `k` anywhere in the tree, in document order") for comparison with
the code's `findall`. -/
def deepMatchesList (tag : String) : List XmlNode → List XmlNode
  | [] => []
  | XmlNode.mk t a tx cs :: rest =>
      (if t = tag then [XmlNode.mk t a tx cs] else [])
        ++ deepMatchesList tag cs ++ deepMatchesList tag rest

/-- All elements of the tree (root included) whose tag matches, at any depth,
in document order.  Spec-side definition, to be compared with `findall`. -/
def deepMatches (tag : String) (root : XmlNode) : List XmlNode :=
  deepMatchesList tag [root]

/-- One entry of a record type's `MAPPINGS` dictionary for the table mapper:
the column-header key, the target attribute, and the optional transformation
applied to the raw cell string. -/
structure TableMapping where
  column : String
  field : String
  transformation : Option (String → PyValue) := Option.none

/-- Python's `mappings.get(column)` over the `MAPPINGS` dictionary. -/
def lookupMapping (mappings : List TableMapping) (column : String) :
    Option TableMapping :=
  mappings.find? (fun m => m.column == column)

/-- Helper for `pySplitlines`: split a character list at every newline;
every newline terminates a line, so a trailing newline opens no extra empty
line and the empty text has no lines. -/
def splitlinesAux : List Char → List (List Char)
  | [] => []
  | c :: cs =>
      if c = '\n' then [] :: splitlinesAux cs
      else
        match splitlinesAux cs with
        | [] => [[c]]
        | l :: ls => (c :: l) :: ls

/-- Python's `table.splitlines()` for newline-separated text. -/
def pySplitlines (s : String) : List String :=
  (splitlinesAux s.data).map (fun l => ⟨l⟩)

/-- The body of the inner `for item, column in zip(row.split(separator),
columns)` loop of `from_table_to_obj_list`: columns absent from `MAPPINGS`
are ignored, mapped columns are transformed (when a transformation is
declared) and assigned. -/
def applyRowItem (mappings : List TableMapping) (obj : String → PyValue)
    (p : String × String) : String → PyValue :=
  match lookupMapping mappings p.2 with
  | Option.none => obj
  | some mp =>
      let value :=
        match mp.transformation with
        | Option.none => PyValue.str p.1
        | some f => f p.1
      setattr obj mp.field value

/-- `from_table_to_obj_list(table, obj_type, separator)` from
`src/common/schedulers/converters.py`: the first line is the header, each
later line is one row, and nothing is produced unless `len(lines) > 1`;
`obj0` is the construction-time default valuation of `obj_type()`. -/
def from_table_to_obj_list (table : String) (mappings : List TableMapping)
    (obj0 : String → PyValue) (separator : String) :
    List (String → PyValue) :=
  match pySplitlines table with
  | [] => []
  | columnsLine :: rows =>
      if rows.isEmpty then []
      else
        let columns := columnsLine.splitOn separator
        rows.map (fun row =>
          ((row.splitOn separator).zip columns).foldl
            (applyRowItem mappings) obj0)

/-- A default object valuation with every attribute `None`; stands in for a
freshly constructed record whose `__init__` defaults everything to `None`. -/
def exObj0 : String → PyValue :=
  fun _ => PyValue.none

/-- A `MAPPINGS` entry mapping the `slots` tag to the `slots` attribute with
no transformation and the default `"text"` element type. -/
def exMappingSlots : Mapping :=
  { tag := "slots", field := "slots" }

/-- The spec's attribute-aggregation example element:
`<hard_request name="vcs_build">TRUE</hard_request>`. -/
def exNamedElem : XmlNode :=
  XmlNode.mk "hard_request" [("name", "vcs_build")] (some "TRUE") []

/-- An element with no text content at all, as `ElementTree` parses
`<queue_name></queue_name>` (its `text` is `None`). -/
def exEmptyTextElem : XmlNode :=
  XmlNode.mk "queue_name" [] Option.none []

/-- A plain text element with surrounding whitespace: `<slots> 3 </slots>`. -/
def exTextElem : XmlNode :=
  XmlNode.mk "slots" [] (some " 3 ") []

/-- A matching element sitting two levels below the root:
`<slots>7</slots>`. -/
def exSlotsNode : XmlNode :=
  XmlNode.mk "slots" [] (some "7") []

/-- A document whose only `slots` element is nested two levels deep:
`<root><wrapper><slots>7</slots></wrapper></root>`. -/
def exDeepDoc : XmlNode :=
  XmlNode.mk "root" [] Option.none
    [XmlNode.mk "wrapper" [] Option.none [exSlotsNode]]

/-- A document with exactly one `slots` element as a direct child of the
root: `<root><slots>3</slots></root>`. -/
def exFlatDoc : XmlNode :=
  XmlNode.mk "root" [] Option.none [XmlNode.mk "slots" [] (some "3") []]

end Converters

namespace SgeModel

/-- Python's `-(-r // v)` (floor division) is the ceiling of `r / v` for a
positive divisor. -/
lemma neg_fdiv_neg_eq_ceil (r v : Int) (hv : 0 < v) :
    -((-r).fdiv v) = ⌈(r : ℚ) / (v : ℚ)⌉ := by
  rw [Int.fdiv_eq_ediv _ hv.le]
  obtain ⟨n, rfl⟩ : ∃ n : ℕ, v = (n : Int) := ⟨v.toNat, (Int.toNat_of_nonneg hv.le).symm⟩
  have hcast : (((n : ℕ) : ℤ) : ℚ) = ((n : ℕ) : ℚ) := by push_cast; ring
  rw [hcast]
  have h2 := Rat.floor_intCast_div_natCast (-r) n
  have h1 : ((-r : ℤ) : ℚ) / ((n : ℕ) : ℚ) = -((r : ℚ) / ((n : ℕ) : ℚ)) := by
    push_cast; ring
  rw [h1, Int.floor_neg] at h2
  rw [← h2, neg_neg]

/-- Characterisation of the inner scan: a successful placement returns an
in-range index whose entry accommodates the demand, and the updated list is
the input with exactly that entry decremented by the demand. -/
lemma placeJobIdx_spec {d : Int} {l : List Int} {i : Nat} {l' : List Int}
    (h : placeJobIdx d l = some (i, l')) :
    i < l.length ∧ d ≤ l.getD i 0 ∧ l' = l.set i (l.getD i 0 - d) := by
  induction l generalizing i l' with
  | nil => exact Option.noConfusion h
  | cons a rest ih =>
    rw [placeJobIdx] at h
    by_cases hda : d ≤ a
    · rw [if_pos hda] at h
      simp only [Option.some.injEq, Prod.mk.injEq] at h
      obtain ⟨rfl, rfl⟩ := h
      simpa using hda
    · rw [if_neg hda] at h
      cases hrec : placeJobIdx d rest with
      | none => rw [hrec] at h; simp at h
      | some p =>
        rw [hrec] at h
        simp only [Option.map_some', Option.some.injEq, Prod.mk.injEq] at h
        obtain ⟨rfl, rfl⟩ := h
        obtain ⟨hlen, hle, hset⟩ := ih hrec
        refine ⟨by simpa using hlen, by simpa using hle, ?_⟩
        simp [hset]

/-- An in-place update of one entry changes the list sum by the difference at
that entry. -/
lemma sum_set_getD (l : List Int) (i : Nat) (x : Int) (h : i < l.length) :
    (l.set i x).sum = l.sum - l.getD i 0 + x := by
  induction l generalizing i with
  | nil => simp at h
  | cons a rest ih =>
    cases i with
    | zero => simp [List.sum_cons]; ring
    | succ n =>
      simp only [List.set_cons_succ, List.sum_cons, List.getD_cons_succ]
      rw [ih n (by simpa using h)]
      ring

/-- Reading an updated list at the updated index. -/
lemma getD_set_self (l : List Int) (i : Nat) (x : Int) (h : i < l.length) :
    (l.set i x).getD i 0 = x := by
  simp [List.getD_eq_getElem?_getD, List.getElem?_set_self h]

/-- Reading an updated list away from the updated index. -/
lemma getD_set_ne (l : List Int) (i j : Nat) (x : Int) (h : i ≠ j) :
    (l.set i x).getD j 0 = l.getD j 0 := by
  simp [List.getD_eq_getElem?_getD, List.getElem?_set_ne h]

/-- Conservation along the matching loop, with an arbitrary starting
accumulator: the final `slots` total plus the initial slot sum equals the
starting total plus the final slot sum plus every job's demand. -/
lemma matchLoop_conservation (jobs : List SgeJob) (s0 : Int) (avail : List Int) :
    (jobs.foldl matchStep (s0, avail)).1 + avail.sum
      = s0 + ((jobs.foldl matchStep (s0, avail)).2).sum
          + (jobs.map (fun j => j.slots)).sum := by
  induction jobs generalizing s0 avail with
  | nil => simp
  | cons j js ih =>
    rw [List.foldl_cons]
    cases hp : placeJobIdx j.slots (avail) with
    | none =>
      simp only [matchStep, hp]
      rw [ih]
      simp [List.sum_cons]
      ring
    | some p =>
      simp only [matchStep, hp]
      obtain ⟨hlen, _, hset⟩ := placeJobIdx_spec hp
      have hsum : p.2.sum = avail.sum - j.slots := by
        rw [hset, sum_set_getD _ _ _ hlen]; ring
      have hih := ih s0 p.2
      rw [hsum] at hih
      simp only [List.map_cons, List.sum_cons]
      omega

/-- The matching loop never drives a non-negative `avail_slots` entry below
zero: each decrement requires `job.slots <= avail_slots[i]`, so the updated
entry stays non-negative, and untouched entries are unchanged. -/
lemma matchLoop_getD_nonneg (jobs : List SgeJob) (s0 : Int) (avail : List Int)
    (i : Nat) (h : 0 ≤ avail.getD i 0) :
    0 ≤ ((jobs.foldl matchStep (s0, avail)).2).getD i 0 := by
  induction jobs generalizing s0 avail with
  | nil => simpa using h
  | cons j js ih =>
    rw [List.foldl_cons]
    cases hp : placeJobIdx j.slots avail with
    | none =>
      simp only [matchStep, hp]
      exact ih (s0 + j.slots) avail h
    | some p =>
      simp only [matchStep, hp]
      obtain ⟨hlen, hle, hset⟩ := placeJobIdx_spec hp
      refine ih s0 p.2 ?_
      by_cases hip : p.1 = i
      · subst hip
        rw [hset, getD_set_self _ _ _ hlen]
        omega
      · rw [hset, getD_set_ne _ _ _ _ hip]
        exact h

/-- C1: on the spec's concrete scenario (`availableSlots = [0, 2, 4]`,
pending demands `[1, 3, 5]` in order, 4 slots per node) the planner returns
5 required slots and 2 required nodes; and in general `get_required_nodes`
returns the ceiling of the required-slots total divided by the per-node slot
count. -/
theorem planner_scenario_and_required_nodes_ceiling :
    get_required_slots 4 scenarioNodes scenarioJobs = 5 ∧
    get_required_nodes 4 scenarioNodes scenarioJobs = 2 ∧
    ∀ (instanceSlots : Int) (nodes : List ComputeNode) (jobs : List SgeJob),
      0 < instanceSlots →
      get_required_nodes instanceSlots nodes jobs
        = ⌈(get_required_slots instanceSlots nodes jobs : ℚ) / (instanceSlots : ℚ)⌉ := by
  refine ⟨by decide, by decide, fun instanceSlots nodes jobs h => ?_⟩
  exact neg_fdiv_neg_eq_ceil (get_required_slots instanceSlots nodes jobs)
    instanceSlots h

/-- Witness for C1: the ceiling identity applied at the concrete scenario. -/
theorem planner_required_nodes_ceiling_witness :
    0 < (4 : Int) ∧
    get_required_nodes 4 scenarioNodes scenarioJobs
      = ⌈(get_required_slots 4 scenarioNodes scenarioJobs : ℚ) / ((4 : Int) : ℚ)⌉ :=
  ⟨by decide,
    planner_scenario_and_required_nodes_ceiling.2.2 4 scenarioNodes scenarioJobs
      (by decide)⟩

/-- C2: conservation of the greedy pass — the returned `slots` total plus the
sum of all decrements applied to `avail_slots` (the initial sum minus the
final sum; each iteration either decrements exactly one entry by the job's
full demand or leaves the list unchanged) equals the total demand of the
processed pending jobs. -/
theorem planner_greedy_conservation (instanceSlots : Int)
    (nodes : List ComputeNode) (jobs : List SgeJob) :
    get_required_slots instanceSlots nodes jobs
        + ((availSlotsList instanceSlots nodes).sum
            - ((jobs.foldl matchStep (0, availSlotsList instanceSlots nodes)).2).sum)
      = (jobs.map (fun j => j.slots)).sum := by
  have h := matchLoop_conservation jobs 0 (availSlotsList instanceSlots nodes)
  rw [get_required_slots]
  omega

/-- C10: a decrement is only ever applied to an `avail_slots` entry whose
current value accommodates the job's demand, so every entry that is
non-negative at the start of the matching loop is still non-negative after
every pending job has been processed. -/
theorem planner_avail_slots_stay_nonneg :
    (∀ (d : Int) (avail : List Int) (i : Nat) (availAfter : List Int),
        placeJobIdx d avail = some (i, availAfter) →
        d ≤ avail.getD i 0
          ∧ availAfter = avail.set i (avail.getD i 0 - d)) ∧
    (∀ (instanceSlots : Int) (nodes : List ComputeNode) (jobs : List SgeJob)
        (i : Nat),
        0 ≤ (availSlotsList instanceSlots nodes).getD i 0 →
        0 ≤ ((jobs.foldl matchStep
              (0, availSlotsList instanceSlots nodes)).2).getD i 0) := by
  constructor
  · intro d avail i availAfter h
    obtain ⟨-, h1, h2⟩ := placeJobIdx_spec h
    exact ⟨h1, h2⟩
  · intro instanceSlots nodes jobs i h
    exact matchLoop_getD_nonneg jobs 0 _ i h

/-- Witness for C10: a concrete placement (`demand 3` into `[5]`) and the
concrete scenario's second entry staying non-negative. -/
theorem planner_avail_slots_stay_nonneg_witness :
    ((3 : Int) ≤ [(5 : Int)].getD 0 0
        ∧ [(2 : Int)] = [(5 : Int)].set 0 ([(5 : Int)].getD 0 0 - 3)) ∧
    0 ≤ (([⟨3⟩] : List SgeJob).foldl matchStep
          (0, availSlotsList 4 scenarioNodes)).2.getD 1 0 :=
  ⟨planner_avail_slots_stay_nonneg.1 3 [5] 0 [2] (by decide),
    planner_avail_slots_stay_nonneg.2 4 scenarioNodes [⟨3⟩] 1 (by decide)⟩

/-- One classifier step adds one exactly when the node satisfies the claim's
busy characterisation. -/
lemma busyStep_eq (busyStates : List String) (b : Nat) (n : ComputeNode) :
    busyStep busyStates b n = b + (if busySpec busyStates n then 1 else 0) := by
  unfold busyStep
  by_cases h1 : busyStates.any (fun s => n.state.contains s)
      ∨ 0 < n.slots_used ∨ 0 < n.slots_reserved
  · rw [if_pos h1]
    by_cases h2 : n.state.contains SGE_ORPHANED_STATE
    · rw [if_pos h2, if_neg]
      · omega
      · intro hb
        exact hb.2 (by simpa using h2)
    · rw [if_neg h2, if_pos]
      refine ⟨?_, by simpa using h2⟩
      rcases h1 with h1 | h1
      · exact Or.inl (by simpa using h1)
      · exact Or.inr h1
  · rw [if_neg h1, if_neg]
    · omega
    · intro hb
      rcases hb.1 with hb1 | hb1
      · exact h1 (Or.inl (by simpa using hb1))
      · exact h1 (Or.inr hb1)

/-- The classifier fold counts exactly the nodes satisfying the busy
characterisation. -/
lemma busy_foldl_count (busyStates : List String) (nodes : List ComputeNode) :
    ∀ b : Nat, nodes.foldl (busyStep busyStates) b
      = b + nodes.countP (fun n => decide (busySpec busyStates n)) := by
  induction nodes with
  | nil => intro b; simp
  | cons n rest ih =>
    intro b
    rw [List.foldl_cons, busyStep_eq, ih, List.countP_cons]
    by_cases h : busySpec busyStates n
    · rw [if_pos h]
      simp only [h, decide_True, if_true]
      omega
    · simp [h]

/-- C6: `get_busy_nodes` counts a node iff its state intersects the
busy-state token set, or it has used or reserved slots, except that a node
carrying the orphaned token is never counted; on the spec's scenario (node A
busy by used slots, node B orphaned despite used slots, node C idle) the
count is 1 for every busy-state token set. -/
theorem busy_nodes_characterisation_and_scenario :
    (∀ (busyStates : List String) (nodes : List ComputeNode),
        get_busy_nodes busyStates nodes
          = (nodes.filter (fun n => decide (busySpec busyStates n))).length) ∧
    ∀ busyStates : List String, get_busy_nodes busyStates busyScenarioNodes = 1 := by
  constructor
  · intro busyStates nodes
    rw [get_busy_nodes, busy_foldl_count, List.countP_eq_length_filter]
    omega
  · intro busyStates
    rw [get_busy_nodes]
    show List.foldl (busyStep busyStates) 0 busyScenarioNodes = 1
    rw [busyScenarioNodes]
    rw [List.foldl_cons, List.foldl_cons, List.foldl_cons, List.foldl_nil]
    rw [busyStep_eq, busyStep_eq, busyStep_eq]
    rw [if_pos, if_neg, if_neg]
    · intro hb
      rcases hb.1 with hb1 | hb1 | hb1
      · obtain ⟨s, hs, hmem⟩ := hb1
        simp at hmem
      · simp at hb1
      · simp at hb1
    · intro hb
      exact hb.2 (by simp [SGE_ORPHANED_STATE])
    · refine ⟨Or.inr (Or.inl (by norm_num)), ?_⟩
      simp

/-- The greedy assignment has one slot decision per pending job. -/
lemma greedyAssign_length (jobs : List SgeJob) :
    ∀ avail : List Int, (greedyAssign avail jobs).length = jobs.length := by
  induction jobs with
  | nil => intro avail; rfl
  | cons j js ih =>
    intro avail
    rw [greedyAssign]
    cases hp : placeJobIdx j.slots avail with
    | some p => simp [ih]
    | none => simp [ih]

/-- The running `slots` total of the loop is the starting total plus the
demand of the jobs the greedy assignment leaves unassigned. -/
lemma greedy_unmet (jobs : List SgeJob) :
    ∀ (s0 : Int) (avail : List Int),
      (jobs.foldl matchStep (s0, avail)).1
        = s0 + unmetDemand (jobs.zip (greedyAssign avail jobs)) := by
  induction jobs with
  | nil => intro s0 avail; simp [greedyAssign, unmetDemand]
  | cons j js ih =>
    intro s0 avail
    rw [List.foldl_cons, greedyAssign]
    cases hp : placeJobIdx j.slots avail with
    | some p =>
      simp only [matchStep, hp]
      rw [List.zip_cons_cons, unmetDemand, ih s0 p.2]
      simp
    | none =>
      simp only [matchStep, hp]
      rw [List.zip_cons_cons, unmetDemand, ih (s0 + j.slots) avail]
      simp
      ring

/-- After the loop, every in-range `avail_slots` entry has decreased by
exactly the load the greedy assignment placed on it. -/
lemma greedy_final_getD (jobs : List SgeJob) :
    ∀ (s0 : Int) (avail : List Int) (i : Nat), i < avail.length →
      ((jobs.foldl matchStep (s0, avail)).2).getD i 0
        = avail.getD i 0 - loadOn (jobs.zip (greedyAssign avail jobs)) i := by
  induction jobs with
  | nil => intro s0 avail i hi; simp [greedyAssign, loadOn]
  | cons j js ih =>
    intro s0 avail i hi
    rw [List.foldl_cons, greedyAssign]
    cases hp : placeJobIdx j.slots avail with
    | none =>
      simp only [matchStep, hp]
      rw [List.zip_cons_cons, loadOn, ih (s0 + j.slots) avail i hi]
      simp
    | some p =>
      simp only [matchStep, hp]
      obtain ⟨hlen, hle, hset⟩ := placeJobIdx_spec hp
      have hlen2 : i < p.2.length := by rw [hset]; simpa using hi
      rw [List.zip_cons_cons, loadOn, ih s0 p.2 i hlen2]
      by_cases hip : p.1 = i
      · subst hip
        rw [hset, getD_set_self _ _ _ hlen]
        simp
        ring
      · rw [hset, getD_set_ne _ _ _ _ hip]
        have : ¬(some p.1 = some i) := by simpa using hip
        rw [if_neg this]
        ring

/-- Unassigned slot entries receive no load. -/
lemma loadOn_eq_zero (pairs : List (SgeJob × Option Nat)) (i : Nat)
    (h : ∀ p ∈ pairs, p.2 ≠ some i) : loadOn pairs i = 0 := by
  induction pairs with
  | nil => rfl
  | cons q rest ih =>
    obtain ⟨jq, aq⟩ := q
    rw [loadOn, if_neg (h (jq, aq) (List.mem_cons_self _ _)), ih]
    · ring
    · intro p hp
      exact h p (List.mem_cons_of_mem _ hp)

/-- Every slot index the greedy assignment uses is in range. -/
lemma greedy_assigned_in_range (jobs : List SgeJob) :
    ∀ (avail : List Int) (i : Nat),
      (∃ p ∈ jobs.zip (greedyAssign avail jobs), p.2 = some i) →
      i < avail.length := by
  induction jobs with
  | nil =>
    intro avail i h
    simp [greedyAssign] at h
  | cons j js ih =>
    intro avail i h
    rw [greedyAssign] at h
    cases hp : placeJobIdx j.slots avail with
    | none =>
      rw [hp] at h
      rw [List.zip_cons_cons] at h
      obtain ⟨p, hmem, hpi⟩ := h
      rcases List.mem_cons.mp hmem with rfl | hmem2
      · exact absurd hpi (by simp)
      · exact ih avail i ⟨p, hmem2, hpi⟩
    | some pl =>
      rw [hp] at h
      rw [List.zip_cons_cons] at h
      obtain ⟨hlen, hle, hset⟩ := placeJobIdx_spec hp
      obtain ⟨p, hmem, hpi⟩ := h
      rcases List.mem_cons.mp hmem with rfl | hmem2
      · simp only at hpi
        obtain rfl : pl.1 = i := by simpa using hpi
        exact hlen
      · have := ih pl.2 i ⟨p, hmem2, hpi⟩
        rw [hset] at this
        simpa using this

/-- Any slot entry the greedy assignment uses ends the loop non-negative:
the last decrement applied to it required the demand to fit. -/
lemma greedy_assigned_nonneg (jobs : List SgeJob) :
    ∀ (avail : List Int) (s0 : Int) (i : Nat),
      (∃ p ∈ jobs.zip (greedyAssign avail jobs), p.2 = some i) →
      0 ≤ ((jobs.foldl matchStep (s0, avail)).2).getD i 0 := by
  induction jobs with
  | nil =>
    intro avail s0 i h
    simp [greedyAssign] at h
  | cons j js ih =>
    intro avail s0 i h
    rw [greedyAssign] at h
    rw [List.foldl_cons]
    cases hp : placeJobIdx j.slots avail with
    | none =>
      rw [hp, List.zip_cons_cons] at h
      simp only [matchStep, hp]
      obtain ⟨p, hmem, hpi⟩ := h
      rcases List.mem_cons.mp hmem with rfl | hmem2
      · exact absurd hpi (by simp)
      · exact ih avail (s0 + j.slots) i ⟨p, hmem2, hpi⟩
    | some pl =>
      rw [hp, List.zip_cons_cons] at h
      simp only [matchStep, hp]
      obtain ⟨hlen, hle, hset⟩ := placeJobIdx_spec hp
      by_cases hrest : ∃ q ∈ js.zip (greedyAssign pl.2 js), q.2 = some i
      · exact ih pl.2 s0 i hrest
      · obtain ⟨p, hmem, hpi⟩ := h
        rcases List.mem_cons.mp hmem with rfl | hmem2
        · simp only at hpi
          obtain rfl : pl.1 = i := by simpa using hpi
          have hlen2 : pl.1 < pl.2.length := by rw [hset]; simpa using hlen
          rw [greedy_final_getD js s0 pl.2 pl.1 hlen2]
          rw [loadOn_eq_zero _ _ (fun q hq hqi => hrest ⟨q, hq, hqi⟩)]
          rw [hset, getD_set_self _ _ _ hlen]
          omega
        · exact absurd ⟨p, hmem2, hpi⟩ hrest

/-- C7: the greedy loop's returned total never proposes fewer required slots
than are actually unmet — any lower bound valid for the unmet demand of
every feasible assignment of pending jobs to the initial available capacity
is a lower bound for the returned total, because the loop's own assignment
is feasible and its unassigned demand is exactly the returned total. -/
theorem required_slots_at_least_optimal_unmet (instanceSlots : Int)
    (nodes : List ComputeNode) (jobs : List SgeJob) (B : Int)
    (hB : ∀ asg, FeasibleAssignment (availSlotsList instanceSlots nodes) jobs asg →
        B ≤ unmetDemand (jobs.zip asg)) :
    B ≤ get_required_slots instanceSlots nodes jobs := by
  have hfeas : FeasibleAssignment (availSlotsList instanceSlots nodes) jobs
      (greedyAssign (availSlotsList instanceSlots nodes) jobs) := by
    refine ⟨greedyAssign_length jobs _, fun i hex => ?_⟩
    have hrange := greedy_assigned_in_range jobs _ i hex
    refine ⟨hrange, ?_⟩
    have h1 := greedy_final_getD jobs 0 (availSlotsList instanceSlots nodes) i hrange
    have h2 := greedy_assigned_nonneg jobs (availSlotsList instanceSlots nodes) 0 i hex
    omega
  have hle := hB _ hfeas
  rw [get_required_slots, greedy_unmet jobs 0 (availSlotsList instanceSlots nodes)]
  omega

/-- Witness for C7: with no pending jobs every feasible assignment has zero
unmet demand, and indeed zero bounds the returned total. -/
theorem required_slots_at_least_optimal_unmet_witness :
    (0 : Int) ≤ get_required_slots 4 scenarioNodes [] :=
  required_slots_at_least_optimal_unmet 4 scenarioNodes [] 0
    (fun _ _ => le_refl 0)

end SgeModel

namespace Converters

/-- Reading the attribute a mapping entry just set. -/
lemma applyMapping_self (root : XmlNode) (obj : String → PyValue) (m : Mapping) :
    applyMapping root obj m m.field
      = match extractValues root m with
        | [] => obj m.field
        | [v] => v
        | vs => PyValue.list vs := by
  unfold applyMapping
  cases extractValues root m with
  | nil => rfl
  | cons v vs =>
    cases vs with
    | nil => simp [setattr]
    | cons w ws => simp [setattr]

/-- A mapping entry only writes its own target attribute. -/
lemma applyMapping_ne (root : XmlNode) (obj : String → PyValue) (m : Mapping)
    (f : String) (h : f ≠ m.field) :
    applyMapping root obj m f = obj f := by
  unfold applyMapping
  cases extractValues root m with
  | nil => rfl
  | cons v vs =>
    cases vs with
    | nil => simp [setattr, h]
    | cons w ws => simp [setattr, h]

/-- Folding mapping entries none of which target an attribute leaves that
attribute untouched. -/
lemma from_xml_untouched (root : XmlNode) (l : List Mapping) (f : String)
    (h : ∀ m' ∈ l, m'.field ≠ f) :
    ∀ obj : String → PyValue, from_xml_to_obj root l obj f = obj f := by
  induction l with
  | nil => intro obj; rfl
  | cons a rest ih =>
    intro obj
    show from_xml_to_obj root rest (applyMapping root obj a) f = obj f
    rw [ih (fun m' hm' => h m' (List.mem_cons_of_mem _ hm')),
      applyMapping_ne root obj a f
        (fun hf => h a (List.mem_cons_self _ _) hf.symm)]

/-- The attribute a mapping entry targets, after the whole fold: when no
other entry targets the same attribute, it holds the aggregation of the
entry's extracted values over the construction-time default. -/
lemma from_xml_field (root : XmlNode) (m : Mapping) :
    ∀ mappings : List Mapping, m ∈ mappings →
      (∀ m' ∈ mappings, m'.field = m.field → m' = m) →
      ∀ obj0 : String → PyValue,
        from_xml_to_obj root mappings obj0 m.field
          = match extractValues root m with
            | [] => obj0 m.field
            | [v] => v
            | vs => PyValue.list vs := by
  intro mappings
  induction mappings with
  | nil => intro hm; cases hm
  | cons a rest ih =>
    intro hm huniq obj0
    have huniq' : ∀ m' ∈ rest, m'.field = m.field → m' = m :=
      fun m' h1 h2 => huniq m' (List.mem_cons_of_mem _ h1) h2
    show from_xml_to_obj root rest (applyMapping root obj0 a) m.field = _
    by_cases ha : a = m
    · subst ha
      by_cases hmem : a ∈ rest
      · rw [ih hmem huniq' (applyMapping root obj0 a)]
        cases hv : extractValues root a with
        | nil =>
          have : applyMapping root obj0 a a.field = obj0 a.field := by
            unfold applyMapping
            rw [hv]
          rw [this]
        | cons v vs => cases vs <;> rfl
      · have hrest : ∀ m' ∈ rest, m'.field ≠ a.field := by
          intro m' h1 h2
          exact hmem ((huniq m' (List.mem_cons_of_mem _ h1) h2) ▸ h1)
        rw [from_xml_untouched root rest a.field hrest]
        exact applyMapping_self root obj0 a
    · have hma : m ∈ rest := by
        rcases List.mem_cons.mp hm with h | h
        · exact absurd h.symm ha
        · exact h
      have hne : a.field ≠ m.field := fun h => ha (huniq a (List.mem_cons_self _ _) h)
      rw [ih hma huniq' (applyMapping root obj0 a)]
      cases hv : extractValues root m with
      | nil => rw [applyMapping_ne root obj0 a m.field (Ne.symm hne)]
      | cons v vs => cases vs <;> rfl

/-- C4: for a source key whose target attribute no other `MAPPINGS` entry
writes, one extracted value sets the attribute to that scalar, two or more
set it to the ordered list of all values, and zero extracted values leave it
at the record's construction-time default. -/
theorem field_aggregation_scalar_list_default (root : XmlNode)
    (mappings : List Mapping) (obj0 : String → PyValue) (m : Mapping)
    (hm : m ∈ mappings)
    (huniq : ∀ m' ∈ mappings, m'.field = m.field → m' = m) :
    (∀ v, extractValues root m = [v] →
        from_xml_to_obj root mappings obj0 m.field = v) ∧
    (∀ v w vs, extractValues root m = v :: w :: vs →
        from_xml_to_obj root mappings obj0 m.field = PyValue.list (v :: w :: vs)) ∧
    (extractValues root m = [] →
        from_xml_to_obj root mappings obj0 m.field = obj0 m.field) := by
  have h := from_xml_field root m mappings hm huniq obj0
  refine ⟨fun v hv => ?_, fun v w vs hv => ?_, fun hv => ?_⟩
  · rw [h, hv]
  · rw [h, hv]
  · rw [h, hv]

/-- Witness for C4: a single `<slots>3</slots>` child sets the `slots`
attribute to the scalar `"3"`. -/
theorem field_aggregation_scalar_list_default_witness :
    exMappingSlots ∈ [exMappingSlots] ∧
    extractValues exFlatDoc exMappingSlots = [PyValue.str "3"] ∧
    from_xml_to_obj exFlatDoc [exMappingSlots] exObj0 exMappingSlots.field
      = PyValue.str "3" :=
  ⟨List.mem_singleton.mpr rfl, rfl,
    (field_aggregation_scalar_list_default exFlatDoc [exMappingSlots] exObj0
        exMappingSlots (List.mem_singleton.mpr rfl)
        (fun _ hm' _ => List.mem_singleton.mp hm')).1
      (PyValue.str "3") rfl⟩

/-- Counterexample to C3 as stated: a matched element that carries a `name`
attribute but whose `MAPPINGS` entry declares `xml_elem_type == "xml"` is
extracted as the subtree node itself — the attribute wrapping only happens in
the text branch. -/
theorem attribute_wrap_skipped_for_subtree_counterexample :
    attribGet exNamedElem.attrib "name" = some "vcs_build" ∧
    extractValue "xml" exNamedElem = PyValue.xml exNamedElem ∧
    extractValue "xml" exNamedElem
      ≠ PyValue.dict [("vcs_build", PyValue.str "TRUE")] := by
  refine ⟨rfl, rfl, ?_⟩
  intro h
  rw [show extractValue "xml" exNamedElem = PyValue.xml exNamedElem from rfl] at h
  exact PyValue.noConfusion h

/-- C3 (amended): for every matched element processed with an element kind
other than `"xml"` that carries a `name` attribute, the extracted value
(before any declared transformation) is the single-entry mapping from the
attribute value to the stripped text; in particular the spec's
`<hard_request name="vcs_build">TRUE</hard_request>` example yields
`{"vcs_build": "TRUE"}`. -/
theorem attribute_aggregation_text_kind :
    (∀ kind : String, kind ≠ "xml" → ∀ (e : XmlNode) (nm : String),
        attribGet e.attrib "name" = some nm →
        extractValue kind e = PyValue.dict [(nm, textValue e)]) ∧
    extractValue "text" exNamedElem
      = PyValue.dict [("vcs_build", PyValue.str "TRUE")] := by
  constructor
  · intro kind hk e nm hnm
    unfold extractValue
    rw [if_neg hk, hnm]
  · rfl

/-- Witness for C3: the general attribute-aggregation rule applied to the
spec's example element. -/
theorem attribute_aggregation_text_kind_witness :
    ("text" : String) ≠ "xml" ∧
    attribGet exNamedElem.attrib "name" = some "vcs_build" ∧
    extractValue "text" exNamedElem
      = PyValue.dict [("vcs_build", textValue exNamedElem)] :=
  ⟨by decide, rfl,
    attribute_aggregation_text_kind.1 "text" (by decide) exNamedElem
      "vcs_build" rfl⟩

/-- Counterexample to C8 as stated: an element with no text content is
extracted as Python `None`, not as the empty string; and an element carrying
a `name` attribute is extracted as a single-entry dict, not as its trimmed
text. -/
theorem text_extraction_counterexample :
    extractValue "text" exEmptyTextElem = PyValue.none ∧
    extractValue "text" exEmptyTextElem ≠ PyValue.str "" ∧
    extractValue "text" exNamedElem ≠ PyValue.str "TRUE" := by
  refine ⟨rfl, ?_, ?_⟩
  · intro h
    rw [show extractValue "text" exEmptyTextElem = PyValue.none from rfl] at h
    exact PyValue.noConfusion h
  · intro h
    rw [show extractValue "text" exNamedElem
        = PyValue.dict [("vcs_build", PyValue.str "TRUE")] from rfl] at h
    exact PyValue.noConfusion h

/-- C8 (amended): with an element kind other than `"xml"` and no `name`
attribute, the extracted value is the element's text with surrounding
whitespace stripped when text content is present and Python `None` when it
is absent; with element kind `"xml"` the value is the matched subtree node
itself. -/
theorem text_extraction_amended (kind : String) (e : XmlNode) :
    (kind = "xml" → extractValue kind e = PyValue.xml e) ∧
    (kind ≠ "xml" → attribGet e.attrib "name" = Option.none →
      ((∀ s, e.text = some s → extractValue kind e = PyValue.str (pyStrip s)) ∧
        (e.text = Option.none → extractValue kind e = PyValue.none))) := by
  constructor
  · intro hk
    unfold extractValue
    rw [if_pos hk]
  · intro hk hnm
    constructor
    · intro s hs
      unfold extractValue textValue
      rw [if_neg hk, hnm, hs]
      show (if s = "" then PyValue.str "" else PyValue.str (pyStrip s))
        = PyValue.str (pyStrip s)
      by_cases hse : s = ""
      · subst hse
        rfl
      · rw [if_neg hse]
    · intro hs
      unfold extractValue textValue
      rw [if_neg hk, hnm, hs]

/-- Witness for C8: the subtree branch on the named element and the text
branch on `<slots> 3 </slots>` (no `name` attribute, text present). -/
theorem text_extraction_amended_witness :
    extractValue "xml" exNamedElem = PyValue.xml exNamedElem ∧
    (("text" : String) ≠ "xml" ∧
      attribGet exTextElem.attrib "name" = Option.none ∧
      exTextElem.text = some " 3 " ∧
      extractValue "text" exTextElem = PyValue.str (pyStrip " 3 ")) :=
  ⟨(text_extraction_amended "xml" exNamedElem).1 rfl,
    by decide, rfl, rfl,
    ((text_extraction_amended "text" exTextElem).2 (by decide) rfl).1 " 3 " rfl⟩

/-- The code's `findall` is the filter of the direct children by tag. -/
lemma findallChildren_eq_filter (tag : String) (cs : List XmlNode) :
    findallChildren tag cs = cs.filter (fun c => c.tag == tag) := by
  induction cs with
  | nil => rfl
  | cons c rest ih =>
    rw [findallChildren, List.filter_cons]
    by_cases h : c.tag = tag
    · rw [if_pos h, ih, if_pos (by simpa using h)]
    · rw [if_neg h, ih, if_neg (by simpa using h)]

/-- The direct-children matches are a document-order selection of the
whole-tree matches. -/
lemma findallChildren_sublist_deep (tag : String) (cs : List XmlNode) :
    List.Sublist (findallChildren tag cs) (deepMatchesList tag cs) := by
  induction cs with
  | nil =>
    rw [findallChildren, deepMatchesList]
  | cons c rest ih =>
    cases c with
    | mk t a tx k =>
      rw [findallChildren, deepMatchesList]
      simp only [XmlNode.tag]
      by_cases h : t = tag
      · rw [if_pos h, if_pos h]
        simp only [List.append_assoc, List.singleton_append]
        exact List.Sublist.cons₂ _ (ih.trans (List.sublist_append_right _ _))
      · rw [if_neg h, if_neg h]
        simp only [List.nil_append]
        exact ih.trans (List.sublist_append_right _ _)

/-- Counterexample to C5 as stated: in
`<root><wrapper><slots>7</slots></wrapper></root>` the whole-tree search
finds the nested `slots` element, but the code's `findall` (and hence
`from_xml_to_obj`) does not — the `slots` attribute keeps its default. -/
theorem findall_not_deep_counterexample :
    deepMatches "slots" exDeepDoc = [exSlotsNode] ∧
    exDeepDoc.findall "slots" = [] ∧
    extractValues exDeepDoc exMappingSlots = [] ∧
    from_xml_to_obj exDeepDoc [exMappingSlots] exObj0 "slots" = PyValue.none := by
  refine ⟨?_, rfl, rfl, rfl⟩
  simp [deepMatches, deepMatchesList, exDeepDoc, exSlotsNode, XmlNode.tag]

/-- C5 (amended): for every source key, `from_xml_to_obj` extracts exactly
the elements matching the key among the direct children of the root, in
document order (a document-order sub-selection of the whole-tree matches);
the search does not descend further. -/
theorem findall_direct_children_only (root : XmlNode) (tag : String) :
    root.findall tag = root.children.filter (fun c => c.tag == tag) ∧
    List.Sublist (root.findall tag) (deepMatches tag root) := by
  refine ⟨findallChildren_eq_filter tag root.children, ?_⟩
  show List.Sublist (findallChildren tag root.children) _
  cases root with
  | mk t a tx k =>
    rw [deepMatches, deepMatchesList]
    show List.Sublist (findallChildren tag k) _
    rw [deepMatchesList]
    simp only [List.append_nil]
    exact (findallChildren_sublist_deep tag k).trans
      (List.sublist_append_right _ _)

/-- C9: a table whose text has fewer than two lines (no header plus at least
one row) maps to the empty record list, with no error. -/
theorem empty_table_returns_empty (table : String)
    (mappings : List TableMapping) (obj0 : String → PyValue)
    (separator : String) (h : (pySplitlines table).length < 2) :
    from_table_to_obj_list table mappings obj0 separator = [] := by
  unfold from_table_to_obj_list
  cases hl : pySplitlines table with
  | nil => rfl
  | cons c rows =>
    rw [hl] at h
    cases rows with
    | nil => rfl
    | cons r rs =>
      rw [List.length_cons, List.length_cons] at h
      omega

/-- Witness for C9: a header-only table produces no records. -/
theorem empty_table_returns_empty_witness :
    (pySplitlines "Name|Slots").length < 2 ∧
    from_table_to_obj_list "Name|Slots" [] exObj0 "|" = [] :=
  ⟨by decide, empty_table_returns_empty "Name|Slots" [] exObj0 "|" (by decide)⟩

end Converters
